import Mathlib

/-!
Verification of the dotenvpull encrypted-secret exchange protocol.

Server side (src/main.py): a FastAPI service over a collection of
EncryptedData documents with fields project_id, encrypted_content and
access_key.  The collection is modelled as a list in insertion order;
Mongo's find_one is modelled as first match, insert as append, save of a
mutated document as in-place replacement, and delete as removal of the
matched document.  An HTTPException is modelled as an error value
(conflict for 400 on store, unauthorized for 403 on a failed key check,
notFound for 404).

Client side (src/dotenvpull.py): the config file dotenvpull_config.json
is a JSON object mapping keys to either a string (the api_url entry) or a
project object with fields encryption_key and access_key.  It is modelled
as an association list in insertion order (Python dicts preserve
insertion order).  Network responses are parameters of the client
operations: a Some response carries the HTTP status and relevant body
fields, and none stands for a requests-level exception.  An exception the
client code does not catch (a requests exception, a KeyError or TypeError
on the config, or a cryptography.fernet.InvalidToken from decrypt) is the
outcome uncaught; a click.echo error message is reportedError.
-/

/-- A server-side record, after the EncryptedData Beanie document of
src/main.py. -/
structure EncryptedData where
  project_id : String
  encrypted_content : String
  access_key : String
deriving Repr, DecidableEq

/-- The server's collection of records, in insertion order. -/
abbrev Store := List EncryptedData

/-- Mongo find_one: the first record satisfying the predicate. -/
def findOne (p : EncryptedData → Bool) : Store → Option EncryptedData
  | [] => none
  | r :: rs => if p r then some r else findOne p rs

/-- Replace the first record satisfying the predicate (Beanie save of a
mutated document found by find_one). -/
def updateFirst (p : EncryptedData → Bool) (f : EncryptedData → EncryptedData) :
    Store → Store
  | [] => []
  | r :: rs => if p r then f r :: rs else r :: updateFirst p f rs

/-- Remove the first record satisfying the predicate (Beanie delete of a
document found by find_one). -/
def removeFirst (p : EncryptedData → Bool) : Store → Store
  | [] => []
  | r :: rs => if p r then rs else r :: removeFirst p rs

/-- The error outcomes of the API routes of src/main.py: conflict is the
400 raised by store, unauthorized the 403 raised by verify_api_key, and
notFound the 404 raised by retrieve, update and delete. -/
inductive ApiError
  | conflict
  | unauthorized
  | notFound
deriving Repr, DecidableEq

/-- verify_api_key of src/main.py: look the presented key up among the
access_key fields; on a match return the record's project_id, otherwise
fail (403). -/
def verify_api_key (s : Store) (apiKey : String) : Option String :=
  (findOne (fun r => r.access_key == apiKey) s).map (fun r => r.project_id)

/-- store_data of src/main.py.  The issued access key
(secrets.token_urlsafe(32) in the source) is passed as the parameter
issued.  Returns the new store together with the issued key on success. -/
def store_data (s : Store) (pid content issued : String) :
    Store × Except ApiError String :=
  match findOne (fun r => r.project_id == pid) s with
  | some _ => (s, .error .conflict)
  | none => (s ++ [⟨pid, content, issued⟩], .ok issued)

/-- retrieve_data of src/main.py: verify the key, then look the record up
again by the project_id the key resolved to. -/
def retrieve_data (s : Store) (apiKey : String) : Except ApiError String :=
  match verify_api_key s apiKey with
  | none => .error .unauthorized
  | some pid =>
    match findOne (fun r => r.project_id == pid) s with
    | none => .error .notFound
    | some r => .ok r.encrypted_content

/-- update_data of src/main.py: verify the key, look the record up by
project_id, overwrite its encrypted_content and save. -/
def update_data (s : Store) (apiKey newContent : String) :
    Store × Except ApiError Unit :=
  match verify_api_key s apiKey with
  | none => (s, .error .unauthorized)
  | some pid =>
    match findOne (fun r => r.project_id == pid) s with
    | none => (s, .error .notFound)
    | some _ =>
      (updateFirst (fun r => r.project_id == pid)
        (fun r => { r with encrypted_content := newContent }) s,
       .ok ())

/-- delete_data of src/main.py: verify the key, look the record up by
project_id, delete it. -/
def delete_data (s : Store) (apiKey : String) : Store × Except ApiError Unit :=
  match verify_api_key s apiKey with
  | none => (s, .error .unauthorized)
  | some pid =>
    match findOne (fun r => r.project_id == pid) s with
    | none => (s, .error .notFound)
    | some _ => (removeFirst (fun r => r.project_id == pid) s, .ok ())

/-- The store invariant of the spec: at most one record per project_id. -/
def uniqueProjects (s : Store) : Prop :=
  s.Pairwise (fun a b => a.project_id ≠ b.project_id)

/-- The store invariant of the spec: access keys are unique across all
records. -/
def uniqueAccessKeys (s : Store) : Prop :=
  s.Pairwise (fun a b => a.access_key ≠ b.access_key)

instance : DecidablePred uniqueProjects := fun s =>
  List.instDecidablePairwise s

instance : DecidablePred uniqueAccessKeys := fun s =>
  List.instDecidablePairwise s

theorem findOne_eq_none {p : EncryptedData → Bool} {s : Store} :
    findOne p s = none ↔ ∀ r ∈ s, p r = false := by
  induction s with
  | nil => simp [findOne]
  | cons r rs ih =>
    constructor
    · intro h x hx
      by_cases hr : p r
      · simp [findOne, hr] at h
      · rcases List.mem_cons.mp hx with h1 | h2
        · rw [h1]; exact Bool.eq_false_iff.mpr hr
        · have hr' : p r = false := Bool.eq_false_iff.mpr hr
          simp only [findOne, hr', Bool.false_eq_true, if_false] at h
          exact ih.mp h x h2
    · intro h
      have hr : p r = false := h r (List.mem_cons_self r rs)
      simp only [findOne, hr, Bool.false_eq_true, if_false]
      exact ih.mpr fun x hx => h x (List.mem_cons_of_mem r hx)

theorem findOne_append_of_none {p : EncryptedData → Bool} {s : Store}
    (h : findOne p s = none) (l : Store) :
    findOne p (s ++ l) = findOne p l := by
  induction s with
  | nil => simp
  | cons r rs ih =>
    rw [findOne_eq_none] at h
    have hr : p r = false := h r (List.mem_cons_self r rs)
    have hrs : findOne p rs = none := by
      rw [findOne_eq_none]
      exact fun x hx => h x (List.mem_cons_of_mem r hx)
    simpa [findOne, hr] using ih hrs

theorem findOne_append_cons {p : EncryptedData → Bool} {pre post : Store}
    {r : EncryptedData} (hpre : ∀ a ∈ pre, p a = false) (hr : p r = true) :
    findOne p (pre ++ r :: post) = some r := by
  induction pre with
  | nil => simp [findOne, hr]
  | cons a rest ih =>
    have ha : p a = false := hpre a (List.mem_cons_self a rest)
    simp only [List.cons_append, findOne, ha]
    simp only [Bool.false_eq_true, if_false]
    exact ih fun x hx => hpre x (List.mem_cons_of_mem a hx)

theorem findOne_eq_some_split {p : EncryptedData → Bool} {s : Store}
    {r : EncryptedData} (h : findOne p s = some r) :
    ∃ pre post, s = pre ++ r :: post ∧ (∀ a ∈ pre, p a = false) ∧ p r = true := by
  induction s with
  | nil => simp [findOne] at h
  | cons a rest ih =>
    by_cases ha : p a
    · refine ⟨[], rest, ?_, by simp, ?_⟩
      · simp [findOne, ha] at h
        simp [h]
      · simp [findOne, ha] at h
        rw [← h]; exact ha
    · simp only [findOne, ha, Bool.false_eq_true, if_false] at h
      obtain ⟨pre, post, hs, hpre, hr⟩ := ih h
      refine ⟨a :: pre, post, by simp [hs], ?_, hr⟩
      intro x hx
      rcases List.mem_cons.mp hx with hxa | hxp
      · rw [hxa]; exact Bool.eq_false_iff.mpr ha
      · exact hpre x hxp

theorem updateFirst_append {p : EncryptedData → Bool}
    {f : EncryptedData → EncryptedData} {pre post : Store} {r : EncryptedData}
    (hpre : ∀ a ∈ pre, p a = false) (hr : p r = true) :
    updateFirst p f (pre ++ r :: post) = pre ++ f r :: post := by
  induction pre with
  | nil => simp [updateFirst, hr]
  | cons a rest ih =>
    have ha : p a = false := hpre a (List.mem_cons_self a rest)
    simp only [List.cons_append, updateFirst, ha, Bool.false_eq_true, if_false]
    exact congrArg (a :: ·) (ih fun x hx => hpre x (List.mem_cons_of_mem a hx))

theorem removeFirst_append {p : EncryptedData → Bool} {pre post : Store}
    {r : EncryptedData} (hpre : ∀ a ∈ pre, p a = false) (hr : p r = true) :
    removeFirst p (pre ++ r :: post) = pre ++ post := by
  induction pre with
  | nil => simp [removeFirst, hr]
  | cons a rest ih =>
    have ha : p a = false := hpre a (List.mem_cons_self a rest)
    simp only [List.cons_append, removeFirst, ha, Bool.false_eq_true, if_false]
    exact congrArg (a :: ·) (ih fun x hx => hpre x (List.mem_cons_of_mem a hx))

/-- A project object of the client config, after the JSON value written
by get_or_create_config of src/dotenvpull.py: a dict with fields
encryption_key and access_key (null until first successful push). -/
structure ProjectEntry where
  encryption_key : String
  access_key : Option String
deriving Repr, DecidableEq

/-- A value of the config document dotenvpull_config.json: either a bare
string (the api_url entry written by init) or a project object. -/
inductive ConfigValue
  | str (s : String)
  | entry (e : ProjectEntry)
deriving Repr, DecidableEq

/-- The config document, an association list of keys to values in
insertion order (Python dicts and json round-trips preserve it). -/
abbrev Config := List (String × ConfigValue)

/-- Dict lookup config[name] as an Option. -/
def lookupConfig (cfg : Config) (name : String) : Option ConfigValue :=
  match cfg with
  | [] => none
  | (n, v) :: rest => if n == name then some v else lookupConfig rest name

/-- Dict assignment config[name] = v for a name already present:
replaces the value at the key, keeping its position. -/
def setConfigValue (cfg : Config) (name : String) (v : ConfigValue) : Config :=
  match cfg with
  | [] => []
  | (n, w) :: rest =>
    if n == name then (n, v) :: rest else (n, w) :: setConfigValue rest name v

/-- del config[name]: removes the binding at the key. -/
def delConfigKey (cfg : Config) (name : String) : Config :=
  match cfg with
  | [] => []
  | (n, w) :: rest =>
    if n == name then rest else (n, w) :: delConfigKey rest name

/-- get_or_create_config of src/dotenvpull.py, called with a project
name.  genKey stands for the Fernet.generate_key() value drawn when the
name is absent.  Returns the config after the call together with
config[project_name], whatever value sits there (for the key api_url
that is the URL string, not a project object). -/
def get_or_create_config (cfg : Config) (name genKey : String) :
    Config × ConfigValue :=
  match lookupConfig cfg name with
  | some v => (cfg, v)
  | none =>
    let e : ProjectEntry := ⟨genKey, none⟩
    (cfg ++ [(name, .entry e)], .entry e)

/-- update_config of src/dotenvpull.py: config[project_name]["access_key"]
= access_key.  Returns none when the statement raises: a KeyError when
the key is absent, a TypeError when config[project_name] is a string. -/
def update_config (cfg : Config) (name accessKey : String) : Option Config :=
  match lookupConfig cfg name with
  | some (.entry e) =>
    some (setConfigValue cfg name (.entry { e with access_key := some accessKey }))
  | _ => none

/-- The local-registry removal performed by the delete command of
src/dotenvpull.py after the server confirms: del config[project_name]. -/
def delete_local_entry (cfg : Config) (name : String) : Config :=
  delConfigKey cfg name

/-- list_projects of src/dotenvpull.py: the lines echoed to the user.
It reads the full config (get_or_create_config with no name) and prints
one line per key of the document; it is a pure function of the local
config and takes no network response. -/
def list_projects (cfg : Config) : List String :=
  if cfg.isEmpty then ["No projects found in local config"]
  else "Projects in local config:" :: cfg.map (fun p => "- " ++ p.1)

/-- Modelled from the spec: the Crypto Module (section 4.1) is realised
by the external cryptography.fernet library, absent from src/.  A
ciphertext records the key it was produced under, a nonce (authenticated
encryption may embed one) and the plaintext, all opaque to the server. -/
structure Ciphertext where
  key : String
  nonce : Nat
  plain : String
deriving Repr, DecidableEq

/-- Modelled from the spec: encrypt(key, plaintext) -> ciphertext
(section 4.1); fernet.encrypt in src/dotenvpull.py. -/
def fernetEncrypt (key : String) (nonce : Nat) (plain : String) : Ciphertext :=
  ⟨key, nonce, plain⟩

/-- Modelled from the spec: decrypt(key, ciphertext) -> plaintext, which
fails (InvalidToken, the spec's IntegrityError) unless the ciphertext was
produced by encrypt under the same key; fernet.decrypt in
src/dotenvpull.py. -/
def fernetDecrypt (key : String) (c : Ciphertext) : Option String :=
  if c.key == key then some c.plain else none

/-- How a client command run ends: ok is a success message, reportedError
a click.echo error message followed by return, uncaught an exception the
code does not catch (requests failure, InvalidToken, KeyError or
TypeError) which terminates the process. -/
inductive ClientOutcome
  | ok
  | reportedError
  | uncaught
deriving Repr, DecidableEq

/-- The fields of a /store response the push command of src/dotenvpull.py
inspects: the status code, and the access_key field of the JSON body when
present. -/
structure StoreResponse where
  status : Nat
  access_key : Option String
deriving Repr, DecidableEq

/-- The fields of a /retrieve response the pull command inspects: the
status code and the encrypted_content field of the body. -/
structure RetrieveResponse where
  status : Nat
  encrypted_content : Ciphertext
deriving Repr, DecidableEq

/-- The push command of src/dotenvpull.py, from get_or_create_config on
(the file-existence check is local I/O outside the core).  nonce feeds
the encryption; resp is the /store response, none standing for a
requests-level exception (which the code does not catch).  When
config[project_name] is a string, Fernet(project_config["encryption_key"])
raises a TypeError, also uncaught.  The registry is written only in the
200-with-access_key branch, via update_config. -/
def push (cfg : Config) (name : String) (nonce : Nat) (plain genKey : String)
    (resp : Option StoreResponse) : Config × ClientOutcome :=
  match get_or_create_config cfg name genKey with
  | (cfg1, .str _) => (cfg1, .uncaught)
  | (cfg1, .entry e) =>
    let _sent : Ciphertext := fernetEncrypt e.encryption_key nonce plain
    match resp with
    | none => (cfg1, .uncaught)
    | some r =>
      if r.status == 200 then
        match r.access_key with
        | some k =>
          match update_config cfg1 name k with
          | some cfg2 => (cfg2, .ok)
          | none => (cfg1, .uncaught)
        | none => (cfg1, .ok)
      else (cfg1, .reportedError)

/-- The pull command of src/dotenvpull.py, from get_or_create_config on
(the output-file check is local I/O outside the core).  On a 200 response
the body's encrypted_content is passed to fernet.decrypt with no
try/except around it: a decryption failure raises InvalidToken, which no
caller catches, so the outcome is uncaught rather than a reported
IntegrityError.  Returns the config, the outcome, and the plaintext
written to the output file when there is one. -/
def pull (cfg : Config) (name genKey : String) (resp : Option RetrieveResponse) :
    Config × ClientOutcome × Option String :=
  match get_or_create_config cfg name genKey with
  | (cfg1, .str _) => (cfg1, .uncaught, none)
  | (cfg1, .entry e) =>
    match e.access_key with
    | none => (cfg1, .reportedError, none)
    | some _ =>
      match resp with
      | none => (cfg1, .uncaught, none)
      | some r =>
        if r.status == 200 then
          match fernetDecrypt e.encryption_key r.encrypted_content with
          | some plain => (cfg1, .ok, some plain)
          | none => (cfg1, .uncaught, none)
        else (cfg1, .reportedError, none)

/-- The access_key field of the project object at a key of the config, or
none when the key is absent or holds a string. -/
def entryAccessKey (cfg : Config) (name : String) : Option String :=
  match lookupConfig cfg name with
  | some (.entry e) => e.access_key
  | _ => none

theorem lookupConfig_append_of_none {cfg : Config} {name : String}
    (h : lookupConfig cfg name = none) (l : Config) :
    lookupConfig (cfg ++ l) name = lookupConfig l name := by
  induction cfg with
  | nil => simp
  | cons p rest ih =>
    obtain ⟨n, v⟩ := p
    by_cases hn : n == name
    · simp [lookupConfig, hn] at h
    · simp only [lookupConfig, hn, Bool.false_eq_true, if_false] at h
      simpa [lookupConfig, hn] using ih h

theorem lookupConfig_set_self {cfg : Config} {name : String} {w : ConfigValue}
    (h : lookupConfig cfg name = some w) (v : ConfigValue) :
    lookupConfig (setConfigValue cfg name v) name = some v := by
  induction cfg with
  | nil => simp [lookupConfig] at h
  | cons p rest ih =>
    obtain ⟨n, x⟩ := p
    by_cases hn : n == name
    · simp [lookupConfig, setConfigValue, hn]
    · simp only [lookupConfig, hn, Bool.false_eq_true, if_false] at h
      simpa [lookupConfig, setConfigValue, hn, Bool.false_eq_true] using ih h

theorem lookupConfig_set_ne {cfg : Config} {name n : String} (v : ConfigValue)
    (hne : n ≠ name) :
    lookupConfig (setConfigValue cfg name v) n = lookupConfig cfg n := by
  induction cfg with
  | nil => simp [lookupConfig, setConfigValue]
  | cons p rest ih =>
    obtain ⟨k, x⟩ := p
    by_cases hk : k == name
    · have hkn : (k == n) = false := by
        have : k = name := by simpa using hk
        subst this
        exact beq_eq_false_iff_ne.mpr fun hc => hne hc.symm
      simp [lookupConfig, setConfigValue, hk, hkn]
    · simp only [setConfigValue, hk, Bool.false_eq_true, if_false]
      by_cases hkn : k == n
      · simp [lookupConfig, hkn]
      · simpa [lookupConfig, hkn, Bool.false_eq_true] using ih

theorem lookupConfig_del_ne {cfg : Config} {name n : String} (hne : n ≠ name) :
    lookupConfig (delConfigKey cfg name) n = lookupConfig cfg n := by
  induction cfg with
  | nil => simp [lookupConfig, delConfigKey]
  | cons p rest ih =>
    obtain ⟨k, x⟩ := p
    by_cases hk : k == name
    · have hkn : (k == n) = false := by
        have : k = name := by simpa using hk
        subst this
        exact beq_eq_false_iff_ne.mpr fun hc => hne hc.symm
      simp [lookupConfig, delConfigKey, hk, hkn]
    · simp only [delConfigKey, hk, Bool.false_eq_true, if_false]
      by_cases hkn : k == n
      · simp [lookupConfig, hkn]
      · simpa [lookupConfig, hkn, Bool.false_eq_true] using ih

/-- C1: at most one SecretRecord per distinct project_id at any time: a
store for an absent project_id succeeds and preserves uniqueness of
project ids, a second store for the same project_id fails with the
conflict error leaving the store unchanged, and the record kept is the
first call's payload, not the second's. -/
theorem store_single_creation (s : Store) (pid c1 c2 k1 k2 : String)
    (habs : findOne (fun r => r.project_id == pid) s = none)
    (huniq : uniqueProjects s) :
    ∃ s1, store_data s pid c1 k1 = (s1, .ok k1) ∧
      uniqueProjects s1 ∧
      store_data s1 pid c2 k2 = (s1, .error .conflict) ∧
      findOne (fun r => r.project_id == pid) s1 = some ⟨pid, c1, k1⟩ := by
  have h1 : findOne (fun r => r.project_id == pid) (s ++ [⟨pid, c1, k1⟩]) =
      some ⟨pid, c1, k1⟩ := by
    rw [findOne_append_of_none habs]
    simp [findOne]
  refine ⟨s ++ [⟨pid, c1, k1⟩], ?_, ?_, ?_, h1⟩
  · simp [store_data, habs]
  · unfold uniqueProjects at huniq ⊢
    rw [List.pairwise_append]
    refine ⟨huniq, by simp, ?_⟩
    intro a ha b hb
    have hfa := findOne_eq_none.mp habs a ha
    simp only [List.mem_singleton] at hb
    subst hb
    intro hc
    rw [hc] at hfa
    simp at hfa
  · simp [store_data, h1]

/-- Witness for store_single_creation at a concrete input. -/
theorem store_single_creation_witness :
    ∃ s1, store_data [] "api" "c1" "K1" = (s1, .ok "K1") ∧
      uniqueProjects s1 ∧
      store_data s1 "api" "c2" "K2" = (s1, .error .conflict) ∧
      findOne (fun r => r.project_id == "api") s1 = some ⟨"api", "c1", "K1"⟩ :=
  store_single_creation [] "api" "c1" "c2" "K1" "K2" (by decide) (by decide)

/-- C2: an access key bound to no record makes retrieve, update and
delete all fail with the unauthorized error, the store unchanged. -/
theorem unbound_key_unauthorized (s : Store) (k c : String)
    (h : ∀ r ∈ s, r.access_key ≠ k) :
    retrieve_data s k = .error .unauthorized ∧
    update_data s k c = (s, .error .unauthorized) ∧
    delete_data s k = (s, .error .unauthorized) := by
  have hf : findOne (fun r => r.access_key == k) s = none :=
    findOne_eq_none.mpr fun r hr => beq_eq_false_iff_ne.mpr (h r hr)
  have hv : verify_api_key s k = none := by
    simp [verify_api_key, hf]
  exact ⟨by simp [retrieve_data, hv], by simp [update_data, hv],
    by simp [delete_data, hv]⟩

/-- Witness for unbound_key_unauthorized at a concrete input. -/
theorem unbound_key_unauthorized_witness :
    retrieve_data [⟨"api", "c", "K1"⟩] "K2" = .error .unauthorized ∧
    update_data [⟨"api", "c", "K1"⟩] "K2" "c2" =
      ([⟨"api", "c", "K1"⟩], .error .unauthorized) ∧
    delete_data [⟨"api", "c", "K1"⟩] "K2" =
      ([⟨"api", "c", "K1"⟩], .error .unauthorized) :=
  unbound_key_unauthorized [⟨"api", "c", "K1"⟩] "K2" "c2" (by decide)

/-- C3: round-trip of the crypto module: decrypting under the key used to
encrypt recovers the plaintext exactly. -/
theorem fernet_round_trip (key : String) (nonce : Nat) (plain : String) :
    fernetDecrypt key (fernetEncrypt key nonce plain) = some plain := by
  simp [fernetDecrypt, fernetEncrypt]

/-- C10: once init has written the server URL under the key api_url of
the same config document that holds project entries, the name api_url is
not usable as a project name: get_or_create_config returns the URL string
itself (no ProjectEntry is created and the config is unchanged), while
any key absent from the config gets a fresh ProjectEntry, so the
project-name namespace is every config key except api_url. -/
theorem get_or_create_api_url_returns_url (cfg : Config) (u genKey : String)
    (h : lookupConfig cfg "api_url" = some (.str u)) :
    get_or_create_config cfg "api_url" genKey = (cfg, .str u) ∧
    ∀ name, lookupConfig cfg name = none →
      (get_or_create_config cfg name genKey).2 =
        .entry ⟨genKey, none⟩ := by
  constructor
  · simp [get_or_create_config, h]
  · intro name hn
    simp [get_or_create_config, hn]

/-- Witness for get_or_create_api_url_returns_url at a concrete input. -/
theorem get_or_create_api_url_witness :
    get_or_create_config [("api_url", ConfigValue.str "http://localhost:8000")]
      "api_url" "G" =
      ([("api_url", ConfigValue.str "http://localhost:8000")],
        .str "http://localhost:8000") :=
  (get_or_create_api_url_returns_url
    [("api_url", ConfigValue.str "http://localhost:8000")]
    "http://localhost:8000" "G" (by decide)).1

/-- C4: push is atomic with respect to the registry entry's access_key:
when the store call fails (requests exception, modelled as none, or a
non-200 response), the access_key recorded for the project in the config
is exactly what it was before the push (still none for an absent or fresh
entry, still the prior value otherwise); update_config runs only in the
200 branch, after the server confirmed success. -/
theorem push_failure_preserves_access_key (cfg : Config) (name : String)
    (nonce : Nat) (plain genKey : String) (resp : Option StoreResponse)
    (hfail : resp = none ∨ ∃ r, resp = some r ∧ r.status ≠ 200) :
    entryAccessKey (push cfg name nonce plain genKey resp).1 name =
      entryAccessKey cfg name := by
  unfold push
  cases hl : lookupConfig cfg name with
  | some v =>
    cases v with
    | str u => simp [get_or_create_config, hl, entryAccessKey]
    | entry e =>
      rcases hfail with hn | ⟨r, hr, hs⟩
      · subst hn
        simp [get_or_create_config, hl, entryAccessKey]
      · subst hr
        have hsf : (r.status == 200) = false := by simpa using hs
        simp [get_or_create_config, hl, hsf, entryAccessKey]
  | none =>
    have hlk : lookupConfig
        (cfg ++ [(name, ConfigValue.entry ⟨genKey, none⟩)]) name =
        some (.entry ⟨genKey, none⟩) := by
      rw [lookupConfig_append_of_none hl]
      simp [lookupConfig]
    rcases hfail with hn | ⟨r, hr, hs⟩
    · subst hn
      simp [get_or_create_config, hl, entryAccessKey, hlk]
    · subst hr
      have hsf : (r.status == 200) = false := by simpa using hs
      simp [get_or_create_config, hl, hsf, entryAccessKey, hlk]

/-- Witness for push_failure_preserves_access_key at a concrete input. -/
theorem push_failure_witness :
    entryAccessKey (push [("api", ConfigValue.entry ⟨"EK", some "OLD"⟩)]
        "api" 0 "SECRET=1" "G" (some ⟨500, none⟩)).1 "api" =
      entryAccessKey [("api", ConfigValue.entry ⟨"EK", some "OLD"⟩)] "api" :=
  push_failure_preserves_access_key
    [("api", ConfigValue.entry ⟨"EK", some "OLD"⟩)] "api" 0 "SECRET=1" "G"
    (some ⟨500, none⟩) (Or.inr ⟨⟨500, none⟩, rfl, by decide⟩)

/-- C6 evidence: a pull whose 200 response carries a ciphertext produced
under a key other than the entry's encryption_key ends uncaught — the
InvalidToken from fernet.decrypt has no try/except around it in
src/dotenvpull.py — instead of failing with a recoverable IntegrityError
as the spec requires. -/
theorem pull_uncaught_on_bad_ciphertext :
    pull [("api", ConfigValue.entry ⟨"K1", some "AK"⟩)] "api" "G"
      (some ⟨200, ⟨"K2", 0, "SECRET=1"⟩⟩) =
    ([("api", ConfigValue.entry ⟨"K1", some "AK"⟩)],
      ClientOutcome.uncaught, none) := by
  rfl

/-- The names the spec calls the project entries of the registry: keys of
the config document whose value is a project object; the api_url string
entry is not one.  Stated from the spec's words, for comparison with the
list_projects code. -/
def specProjectEntryNames (cfg : Config) : List String :=
  (cfg.filter (fun p => match p.2 with
    | .entry _ => true
    | .str _ => false)).map (fun p => p.1)

/-- C9 counterexample: on a config holding the api_url entry (written by
init) plus one project, list_projects prints a line for api_url as well,
so it does not enumerate exactly the names of the project entries. -/
theorem list_projects_includes_api_url :
    list_projects [("api_url", ConfigValue.str "http://localhost:8000"),
        ("api", ConfigValue.entry ⟨"EK", some "AK"⟩)] ≠
      "Projects in local config:" ::
        (specProjectEntryNames
          [("api_url", ConfigValue.str "http://localhost:8000"),
            ("api", ConfigValue.entry ⟨"EK", some "AK"⟩)]).map
          (fun n => "- " ++ n) := by
  decide

/-- C9 as amended: on a nonempty config, list_projects prints, after its
header, one line per key of the whole config document in insertion order
— the project entries plus the api_url key when present.  It is a pure
function of the local config alone (no response parameter), so it never
contacts the server. -/
theorem list_projects_all_keys (cfg : Config) (h : cfg ≠ []) :
    list_projects cfg =
      "Projects in local config:" :: cfg.map (fun p => "- " ++ p.1) := by
  cases cfg with
  | nil => exact absurd rfl h
  | cons p rest => rfl

/-- Witness for list_projects_all_keys at a concrete input. -/
theorem list_projects_all_keys_witness :
    list_projects [("api_url", ConfigValue.str "u")] =
      "Projects in local config:" ::
        [("api_url", ConfigValue.str "u")].map (fun p => "- " ++ p.1) :=
  list_projects_all_keys [("api_url", ConfigValue.str "u")] (by decide)

theorem lookupConfig_append_of_some {cfg : Config} {name : String}
    {v : ConfigValue} (h : lookupConfig cfg name = some v) (l : Config) :
    lookupConfig (cfg ++ l) name = some v := by
  induction cfg with
  | nil => simp [lookupConfig] at h
  | cons p rest ih =>
    obtain ⟨n, w⟩ := p
    by_cases hn : n == name
    · simp [lookupConfig, hn] at h
      simpa [lookupConfig, hn] using h
    · simp only [lookupConfig, hn, Bool.false_eq_true, if_false] at h
      simpa [lookupConfig, hn, Bool.false_eq_true] using ih h

/-- C5: delete finality.  From a store satisfying both invariants, a
delete with a bound key succeeds; a retrieve with the same now-stale key
then fails with the unauthorized error; and a fresh store for the same
project_id succeeds, recording a record whose access key is the freshly
issued one, different from the old key (freshness of the issued token,
guaranteed by entropy per the spec, is the hypothesis hfresh). -/
theorem delete_finality (s : Store) (k k2 pid c2 : String)
    (huniq : uniqueProjects s) (hkeys : uniqueAccessKeys s)
    (hv : verify_api_key s k = some pid) (hfresh : k2 ≠ k) :
    ∃ s1, delete_data s k = (s1, .ok ()) ∧
      retrieve_data s1 k = .error .unauthorized ∧
      ∃ s2, store_data s1 pid c2 k2 = (s2, .ok k2) ∧
        findOne (fun r => r.project_id == pid) s2 = some ⟨pid, c2, k2⟩ ∧
        (⟨pid, c2, k2⟩ : EncryptedData).access_key ≠ k := by
  have hfex : ∃ r0, findOne (fun r => r.access_key == k) s = some r0 ∧
      r0.project_id = pid := by
    unfold verify_api_key at hv
    cases hfo : findOne (fun r => r.access_key == k) s with
    | none => rw [hfo] at hv; simp at hv
    | some r0 =>
      rw [hfo] at hv
      exact ⟨r0, rfl, by simpa using hv⟩
  obtain ⟨r0, hfo, hpid⟩ := hfex
  obtain ⟨pre, post, hs, hpreK, hr0K⟩ := findOne_eq_some_split hfo
  have hr0k : r0.access_key = k := by simpa using hr0K
  have huniq' := huniq
  rw [hs] at huniq'
  unfold uniqueProjects at huniq'
  rw [List.pairwise_append, List.pairwise_cons] at huniq'
  have hkeys' := hkeys
  rw [hs] at hkeys'
  unfold uniqueAccessKeys at hkeys'
  rw [List.pairwise_append, List.pairwise_cons] at hkeys'
  have hprePid : ∀ a ∈ pre, (a.project_id == pid) = false := by
    intro a ha
    have hne := huniq'.2.2 a ha r0 (List.mem_cons_self r0 post)
    exact beq_eq_false_iff_ne.mpr (hpid ▸ hne)
  have hpostPid : ∀ b ∈ post, (b.project_id == pid) = false := by
    intro b hb
    have hne := huniq'.2.1.1 b hb
    exact beq_eq_false_iff_ne.mpr fun hc => (hpid ▸ hne) hc.symm
  have hpostKey : ∀ b ∈ post, (b.access_key == k) = false := by
    intro b hb
    have hne := hkeys'.2.1.1 b hb
    exact beq_eq_false_iff_ne.mpr fun hc => (hr0k ▸ hne) hc.symm
  have hr0Pid : (r0.project_id == pid) = true := by simp [hpid]
  have hfindPid : findOne (fun r => r.project_id == pid) s = some r0 := by
    rw [hs]; exact findOne_append_cons hprePid hr0Pid
  have hrem : removeFirst (fun r => r.project_id == pid) s = pre ++ post := by
    rw [hs]; exact removeFirst_append hprePid hr0Pid
  refine ⟨pre ++ post, ?_, ?_, ?_⟩
  · simp [delete_data, hv, hfindPid, hrem]
  · have hnone : findOne (fun r => r.access_key == k) (pre ++ post) = none := by
      rw [findOne_eq_none]
      intro x hx
      rcases List.mem_append.mp hx with h1 | h2
      · exact hpreK x h1
      · exact hpostKey x h2
    simp [retrieve_data, verify_api_key, hnone]
  · have hnonePid : findOne (fun r => r.project_id == pid) (pre ++ post) =
        none := by
      rw [findOne_eq_none]
      intro x hx
      rcases List.mem_append.mp hx with h1 | h2
      · exact hprePid x h1
      · exact hpostPid x h2
    refine ⟨(pre ++ post) ++ [⟨pid, c2, k2⟩], ?_, ?_, hfresh⟩
    · simp [store_data, hnonePid]
    · rw [findOne_append_of_none hnonePid]
      simp [findOne]

/-- Witness for delete_finality at a concrete input. -/
theorem delete_finality_witness :
    ∃ s1, delete_data [⟨"api", "c1", "K1"⟩] "K1" = (s1, .ok ()) ∧
      retrieve_data s1 "K1" = .error .unauthorized ∧
      ∃ s2, store_data s1 "api" "c2" "K2" = (s2, .ok "K2") ∧
        findOne (fun r => r.project_id == "api") s2 =
          some ⟨"api", "c2", "K2"⟩ ∧
        (⟨"api", "c2", "K2"⟩ : EncryptedData).access_key ≠ "K1" :=
  delete_finality [⟨"api", "c1", "K1"⟩] "K1" "K2" "api" "c2"
    (by decide) (by decide) (by decide) (by decide)

/-- C7: a successful update against the record bound to the presented
key replaces that record's encrypted_content in place and nothing else:
the records before and after it are untouched, the target keeps its
project_id and access_key, and the store has the same length (no record
created or destroyed). -/
theorem update_frame (s : Store) (k c pid : String)
    (huniq : uniqueProjects s)
    (hv : verify_api_key s k = some pid) :
    ∃ pre r0 post, s = pre ++ r0 :: post ∧
      r0.access_key = k ∧ r0.project_id = pid ∧
      update_data s k c =
        (pre ++ { r0 with encrypted_content := c } :: post, .ok ()) ∧
      (pre ++ { r0 with encrypted_content := c } :: post).length = s.length := by
  have hfex : ∃ r0, findOne (fun r => r.access_key == k) s = some r0 ∧
      r0.project_id = pid := by
    unfold verify_api_key at hv
    cases hfo : findOne (fun r => r.access_key == k) s with
    | none => rw [hfo] at hv; simp at hv
    | some r0 =>
      rw [hfo] at hv
      exact ⟨r0, rfl, by simpa using hv⟩
  obtain ⟨r0, hfo, hpid⟩ := hfex
  obtain ⟨pre, post, hs, hpreK, hr0K⟩ := findOne_eq_some_split hfo
  have hr0k : r0.access_key = k := by simpa using hr0K
  have huniq' := huniq
  rw [hs] at huniq'
  unfold uniqueProjects at huniq'
  rw [List.pairwise_append] at huniq'
  have hprePid : ∀ a ∈ pre, (a.project_id == pid) = false := by
    intro a ha
    have hne := huniq'.2.2 a ha r0 (List.mem_cons_self r0 post)
    exact beq_eq_false_iff_ne.mpr (hpid ▸ hne)
  have hr0Pid : (r0.project_id == pid) = true := by simp [hpid]
  have hfindPid : findOne (fun r => r.project_id == pid) s = some r0 := by
    rw [hs]; exact findOne_append_cons hprePid hr0Pid
  have hupd : updateFirst (fun r => r.project_id == pid)
      (fun r => { r with encrypted_content := c }) s =
      pre ++ { r0 with encrypted_content := c } :: post := by
    rw [hs]; exact updateFirst_append hprePid hr0Pid
  refine ⟨pre, r0, post, hs, hr0k, hpid, ?_, by simp [hs]⟩
  simp [update_data, hv, hfindPid, hupd]

/-- Witness for update_frame at a concrete input. -/
theorem update_frame_witness :
    ∃ pre r0 post,
      ([⟨"api", "c1", "K1"⟩] : Store) = pre ++ r0 :: post ∧
      r0.access_key = "K1" ∧ r0.project_id = "api" ∧
      update_data [⟨"api", "c1", "K1"⟩] "K1" "c2" =
        (pre ++ { r0 with encrypted_content := "c2" } :: post, .ok ()) ∧
      (pre ++ { r0 with encrypted_content := "c2" } :: post).length =
        ([⟨"api", "c1", "K1"⟩] : Store).length :=
  update_frame [⟨"api", "c1", "K1"⟩] "K1" "c2" "api" (by decide) (by decide)

/-- C8: the encryption_key of a project entry is never overwritten for
the lifetime of the entry, and access_key is the only field the registry
operations mutate: get_or_create_config leaves every existing binding
exactly as it was; update_config keeps every entry's encryption_key and
touches no entry other than its target, where it changes only access_key;
the local removal of the delete command leaves every other binding as it
was (list_projects reads the config and builds strings, mutating
nothing). -/
theorem encryption_key_immutable (cfg : Config) (name n genKey ak : String)
    (e : ProjectEntry) (he : lookupConfig cfg n = some (.entry e)) :
    lookupConfig (get_or_create_config cfg name genKey).1 n =
      some (.entry e) ∧
    (∀ cfg2, update_config cfg name ak = some cfg2 →
      ∃ ak2, lookupConfig cfg2 n = some (.entry ⟨e.encryption_key, ak2⟩) ∧
        (n ≠ name → ak2 = e.access_key)) ∧
    (n ≠ name → lookupConfig (delete_local_entry cfg name) n =
      some (.entry e)) := by
  refine ⟨?_, ?_, ?_⟩
  · cases hl : lookupConfig cfg name with
    | some v => simpa [get_or_create_config, hl] using he
    | none =>
      simp only [get_or_create_config, hl]
      exact lookupConfig_append_of_some he _
  · intro cfg2 h2
    unfold update_config at h2
    cases hl : lookupConfig cfg name with
    | none => rw [hl] at h2; simp at h2
    | some v =>
      cases v with
      | str u => rw [hl] at h2; simp at h2
      | entry e1 =>
        rw [hl] at h2
        simp only [Option.some.injEq] at h2
        by_cases hnn : n = name
        · subst hnn
          rw [he] at hl
          have he1 : e = e1 := by simpa using hl
          subst he1
          refine ⟨some ak, ?_, fun hcon => absurd rfl hcon⟩
          rw [← h2]
          exact lookupConfig_set_self he
            (ConfigValue.entry { e with access_key := some ak })
        · refine ⟨e.access_key, ?_, fun _ => rfl⟩
          rw [← h2, lookupConfig_set_ne _ hnn]
          exact he
  · intro hnn
    unfold delete_local_entry
    rw [lookupConfig_del_ne hnn]
    exact he

/-- Witness for encryption_key_immutable at a concrete input. -/
theorem encryption_key_immutable_witness :
    lookupConfig (get_or_create_config
        [("api", ConfigValue.entry ⟨"EK", none⟩)] "other" "G").1 "api" =
      some (.entry ⟨"EK", none⟩) ∧
    lookupConfig (delete_local_entry
        [("api", ConfigValue.entry ⟨"EK", none⟩)] "other") "api" =
      some (.entry ⟨"EK", none⟩) := by
  have h := encryption_key_immutable [("api", ConfigValue.entry ⟨"EK", none⟩)]
    "other" "api" "G" "AK" ⟨"EK", none⟩ (by decide)
  exact ⟨h.1, h.2.2 (by decide)⟩
